import Mathlib

/-
  Verification of the simple-blockchain core (src/main.rs).

  The Rust source is shallowly embedded: `Transaction`, `Block` and
  `Blockchain` become Lean structures; the nondeterministic wall clock is an
  explicit `now` parameter; Rust panics (`panic!`, `unwrap`, `HashMap`
  indexing of an absent key) become `Option.none`; the `sha2` crate's
  SHA-256 is implemented over `Nat` with explicit reduction mod 2^32.
-/

set_option maxRecDepth 20000

namespace SimpleBlockchain

/-- The 32-bit word modulus 2^32. -/
def w32 : Nat := 4294967296

/-- Right rotation of a 32-bit word by `n` bits. -/
def rotWord (n x : Nat) : Nat := ((x >>> n) ||| (x <<< (32 - n))) % w32

/-- SHA-256 upper-case sigma 0 (rotations by 2, 13, 22). -/
def sigA0 (x : Nat) : Nat := (rotWord 2 x) ^^^ (rotWord 13 x) ^^^ (rotWord 22 x)

/-- SHA-256 upper-case sigma 1 (rotations by 6, 11, 25). -/
def sigA1 (x : Nat) : Nat := (rotWord 6 x) ^^^ (rotWord 11 x) ^^^ (rotWord 25 x)

/-- SHA-256 lower-case sigma 0 (rotations by 7, 18, shift by 3). -/
def sigB0 (x : Nat) : Nat := (rotWord 7 x) ^^^ (rotWord 18 x) ^^^ (x >>> 3)

/-- SHA-256 lower-case sigma 1 (rotations by 17, 19, shift by 10). -/
def sigB1 (x : Nat) : Nat := (rotWord 17 x) ^^^ (rotWord 19 x) ^^^ (x >>> 10)

/-- SHA-256 choice function; the complement of a 32-bit word is xor with 2^32 - 1. -/
def chF (e f g : Nat) : Nat := (e &&& f) ^^^ ((e ^^^ (w32 - 1)) &&& g)

/-- SHA-256 majority function. -/
def majF (a b c : Nat) : Nat := (a &&& b) ^^^ (a &&& c) ^^^ (b &&& c)

/-- The 64 SHA-256 round constants of FIPS 180-4, in decimal. -/
def K64 : List Nat :=
  [1116352408, 1899447441, 3049323471, 3921009573, 961987163,
   1508970993, 2453635748, 2870763221, 3624381080, 310598401,
   607225278, 1426881987, 1925078388, 2162078206, 2614888103,
   3248222580, 3835390401, 4022224774, 264347078, 604807628,
   770255983, 1249150122, 1555081692, 1996064986, 2554220882,
   2821834349, 2952996808, 3210313671, 3336571891, 3584528711,
   113926993, 338241895, 666307205, 773529912, 1294757372,
   1396182291, 1695183700, 1986661051, 2177026350, 2456956037,
   2730485921, 2820302411, 3259730800, 3345764771, 3516065817,
   3600352804, 4094571909, 275423344, 430227734, 506948616,
   659060556, 883997877, 958139571, 1322822218, 1537002063,
   1747873779, 1955562222, 2024104815, 2227730452, 2361852424,
   2428436474, 2756734187, 3204031479, 3329325298]

/-- The eight-word SHA-256 working state. -/
structure H8 where
  a : Nat
  b : Nat
  c : Nat
  d : Nat
  e : Nat
  f : Nat
  g : Nat
  h : Nat
deriving DecidableEq

/-- The SHA-256 initial hash value. -/
def initH : H8 :=
  ⟨1779033703, 3144134277, 1013904242, 2773480762,
   1359893119, 2600822924, 528734635, 1541459225⟩

/-- One SHA-256 compression round for round constant `ki` and schedule word `wi`. -/
def roundStep (ki wi : Nat) (s : H8) : H8 :=
  let t1 := (s.h + sigA1 s.e + chF s.e s.f s.g + ki + wi) % w32
  let t2 := (sigA0 s.a + majF s.a s.b s.c) % w32
  ⟨(t1 + t2) % w32, s.a, s.b, s.c, (s.d + t1) % w32, s.e, s.f, s.g⟩

/-- Run the compression rounds over the zipped constants and schedule. -/
def compressWords : List (Nat × Nat) → H8 → H8
  | [], s => s
  | (ki, wi) :: rest, s => compressWords rest (roundStep ki wi s)

/-- Next message-schedule word from the previous 16-word window. -/
def newWord (win : List Nat) : Nat :=
  (win.getD 0 0 + sigB0 (win.getD 1 0) + win.getD 9 0 + sigB1 (win.getD 14 0)) % w32

/-- Extend the 16-word window by `n` schedule words. -/
def extendWords : List Nat → Nat → List Nat
  | _, 0 => []
  | win, n + 1 =>
    let nw := newWord win
    nw :: extendWords (win.drop 1 ++ [nw]) n

/-- The full 64-word message schedule of one chunk. -/
def schedule (first16 : List Nat) : List Nat := first16 ++ extendWords first16 48

/-- Pointwise sum of two states mod 2^32. -/
def addH (s t : H8) : H8 :=
  ⟨(s.a + t.a) % w32, (s.b + t.b) % w32, (s.c + t.c) % w32, (s.d + t.d) % w32,
   (s.e + t.e) % w32, (s.f + t.f) % w32, (s.g + t.g) % w32, (s.h + t.h) % w32⟩

/-- Process one 16-word chunk: compress its schedule and add to the running state. -/
def processChunk (hs : H8) (chunkWords : List Nat) : H8 :=
  addH hs (compressWords (K64.zip (schedule chunkWords)) hs)

/-- Big-endian 8-byte encoding of the 64-bit message length. -/
def lenBytes (n : Nat) : List Nat :=
  [(n >>> 56) % 256, (n >>> 48) % 256, (n >>> 40) % 256, (n >>> 32) % 256,
   (n >>> 24) % 256, (n >>> 16) % 256, (n >>> 8) % 256, n % 256]

/-- SHA-256 padding: append 0x80, zeros to 56 mod 64, then the bit length. -/
def padBytes (msg : List Nat) : List Nat :=
  msg ++ 128 :: List.replicate ((119 - msg.length % 64) % 64) 0 ++ lenBytes (msg.length * 8)

/-- Group bytes into big-endian 32-bit words. -/
def toWords : List Nat → List Nat
  | a :: b :: c :: d :: rest => (((a * 256 + b) * 256 + c) * 256 + d) :: toWords rest
  | _ => []

/-- Split a byte list into 64-byte chunks. -/
def chunks64 (l : List Nat) : List (List Nat) :=
  match l with
  | [] => []
  | x :: xs => ((x :: xs).take 64) :: chunks64 ((x :: xs).drop 64)
termination_by l.length
decreasing_by simp only [List.length_drop, List.length_cons]; omega

/-- The SHA-256 state after absorbing a whole (unpadded) message. -/
def sha256Words (msg : List Nat) : H8 :=
  (chunks64 (padBytes msg)).foldl (fun hs chunk => processChunk hs (toWords chunk)) initH

/-- The SHA-256 digest of a byte list, as a natural number below 2^256. -/
def sha256Nat (msg : List Nat) : Nat :=
  let s := sha256Words msg
  [s.a, s.b, s.c, s.d, s.e, s.f, s.g, s.h].foldl (fun acc x => acc * w32 + x % w32) 0

/-- Lowercase hex digit of a value below 16. -/
def hexChar (n : Nat) : Char := if n < 10 then Char.ofNat (48 + n) else Char.ofNat (87 + n)

/-- Fixed-width big-endian lowercase hex digits of a number. -/
def hexDigits : Nat → Nat → List Char
  | _, 0 => []
  | n, k + 1 => hexDigits (n / 16) k ++ [hexChar (n % 16)]

/-- `hex::encode` of a SHA-256 digest: 64 lowercase hex characters. -/
def sha256hex (msg : List Nat) : String := String.mk (hexDigits (sha256Nat msg) 64)

/-- UTF-8 encoding of one character, as byte values. -/
def utf8Bytes (c : Char) : List Nat :=
  let n := c.toNat
  if n < 128 then [n]
  else if n < 2048 then [192 + n / 64, 128 + n % 64]
  else if n < 65536 then [224 + n / 4096, 128 + (n / 64) % 64, 128 + n % 64]
  else [240 + n / 262144, 128 + (n / 4096) % 64, 128 + (n / 64) % 64, 128 + n % 64]

/-- UTF-8 encoding of a string, as byte values. -/
def strBytes (s : String) : List Nat :=
  s.data.foldr (fun c acc => utf8Bytes c ++ acc) []

/-- Lowercase hex digits of a number, shortest form, as in Rust `\u` escapes. -/
def hexMin (n : Nat) : List Char :=
  if _h : n < 16 then [hexChar n]
  else hexMin (n / 16) ++ [hexChar (n % 16)]
decreasing_by exact Nat.div_lt_self (by omega) (by omega)

/-- Rust `Debug` escaping of one character inside a string literal. -/
def escapeChar (c : Char) : List Char :=
  if c = Char.ofNat 34 then [Char.ofNat 92, Char.ofNat 34]
  else if c = Char.ofNat 92 then [Char.ofNat 92, Char.ofNat 92]
  else if c = Char.ofNat 10 then [Char.ofNat 92, Char.ofNat 110]
  else if c = Char.ofNat 13 then [Char.ofNat 92, Char.ofNat 114]
  else if c = Char.ofNat 9 then [Char.ofNat 92, Char.ofNat 116]
  else if c.toNat < 32 ∨ c.toNat = 127 then
    [Char.ofNat 92, Char.ofNat 117, Char.ofNat 123] ++ hexMin c.toNat ++ [Char.ofNat 125]
  else [c]

/-- Rust `Debug` rendering of a string: quoted and escaped. -/
def debugStr (s : String) : String :=
  String.mk (Char.ofNat 34 :: s.data.foldr (fun c acc => escapeChar c ++ acc) [Char.ofNat 34])

/-- A ledger record, `struct Transaction` of the source. -/
structure Transaction where
  id : Nat
  origin : String
  destination : String
  quantity : Nat
deriving DecidableEq

/-- Derived `Debug` rendering of one `Transaction`. -/
def fmtTransaction (t : Transaction) : String :=
  "Transaction \x7b id: " ++ toString t.id ++ ", origin: " ++ debugStr t.origin ++
  ", destination: " ++ debugStr t.destination ++ ", quantity: " ++ toString t.quantity ++ " \x7d"

/-- Derived `Debug` rendering of `Vec<Transaction>`. -/
def fmtTransactions (ts : List Transaction) : String :=
  "[" ++ String.intercalate ", " (ts.map fmtTransaction) ++ "]"

/-- A block of the chain, `struct Block` of the source; `hash` is `None` until sealed. -/
structure Block where
  id : Nat
  timestamp : Nat
  transactions : List Transaction
  previous_hash : String
  hash : Option String
deriving DecidableEq

namespace Block

/-- `Block::new`: the wall clock read is passed in as `now`. -/
def new (id : Nat) (previous_hash : String) (now : Nat) : Block :=
  { id := id, timestamp := now, transactions := [], previous_hash := previous_hash, hash := none }

/-- The `format!` serialization feeding the hasher: id, timestamp, records
debug form and predecessor hash concatenated with no separators. -/
def hashInput (b : Block) : String :=
  toString b.id ++ toString b.timestamp ++ fmtTransactions b.transactions ++ b.previous_hash

/-- `Block::calculate_hash`: SHA-256 of the serialization, hex encoded. -/
def calculate_hash (b : Block) : String := sha256hex (strBytes (hashInput b))

/-- `Block::add_transaction`: append only below capacity 5; on reaching
exactly 5 records, compute and store the content hash of the block as just
filled. -/
def add_transaction (b : Block) (t : Transaction) : Block :=
  if b.transactions.length < 5 then
    if (b.transactions ++ [t]).length = 5 then
      { b with transactions := b.transactions ++ [t],
               hash := some (calculate_hash { b with transactions := b.transactions ++ [t] }) }
    else { b with transactions := b.transactions ++ [t] }
  else b

end Block

/-- The chain, `struct Blockchain` of the source: a map from id to block and
the id of the latest block. -/
structure Blockchain where
  blocks : Nat → Option Block
  latest_block : Option Nat

/-- `HashMap::insert` on the id-to-block map. -/
def insertB (m : Nat → Option Block) (k : Nat) (b : Block) : Nat → Option Block :=
  fun n => if n = k then some b else m n

namespace Blockchain

/-- The genesis block: `Block::new(0, "0")` with its content hash forced at
construction despite having zero records. -/
def genesisBlock (now : Nat) : Block :=
  { Block.new 0 "0" now with hash := some (Block.calculate_hash (Block.new 0 "0" now)) }

/-- `Blockchain::new`: the genesis block stored under id 0, tip set to 0. -/
def new (now : Nat) : Blockchain :=
  { blocks := insertB (fun _ => none) 0 (genesisBlock now), latest_block := some 0 }

/-- `Blockchain::add_block`. Returns `none` where the Rust code panics: a
batch whose length is not 5, an absent latest id, an absent tip block, or an
unsealed tip. -/
def add_block (c : Blockchain) (transactions : List Transaction) (now : Nat) :
    Option Blockchain :=
  if transactions.length ≠ 5 then none
  else
    match c.latest_block with
    | none => none
    | some latest_id =>
      match c.blocks latest_id with
      | none => none
      | some tip =>
        match tip.hash with
        | none => none
        | some previous_hash =>
          let block := transactions.foldl Block.add_transaction
            (Block.new (latest_id + 1) previous_hash now)
          some { blocks := insertB c.blocks block.id block, latest_block := some block.id }

/-- `Blockchain::get_block_by_id`. -/
def get_block_by_id (c : Blockchain) (id : Nat) : Option Block := c.blocks id

/-- The loop body of `Blockchain::validate_chain`, walking ids `i`,
`i + 1`, ... for `fuel` steps with the running expected predecessor hash.
`none` models the panic on indexing an absent block. -/
def validateFrom (c : Blockchain) (previous_hash : String) (i fuel : Nat) : Option Bool :=
  match fuel with
  | 0 => some true
  | n + 1 =>
    match c.blocks i with
    | none => none
    | some b =>
      match b.hash with
      | none => some false
      | some h =>
        if h ≠ Block.calculate_hash b then some false
        else if b.previous_hash ≠ previous_hash then some false
        else validateFrom c h (i + 1) n

/-- `Blockchain::validate_chain`: walk ids 0 through the latest, seeded with
the sentinel "0". `none` models the panic when `latest_block` is `None`. -/
def validate_chain (c : Blockchain) : Option Bool :=
  match c.latest_block with
  | none => none
  | some tip => validateFrom c "0" 0 (tip + 1)

end Blockchain

/-- Declarative statement of the validator's three per-block checks at
position `n`: the block is present, its stored hash is present and equals the
recomputed hash, and its predecessor hash is the sentinel "0" at position 0,
or the stored hash of the block at position `n - 1` otherwise. -/
def passesAt (c : Blockchain) : Nat → Prop
  | 0 => ∃ b, c.blocks 0 = some b ∧ b.hash = some (Block.calculate_hash b) ∧
          b.previous_hash = "0"
  | n + 1 => ∃ b p, c.blocks (n + 1) = some b ∧ c.blocks n = some p ∧
          b.hash = some (Block.calculate_hash b) ∧ p.hash = some b.previous_hash

/-- The walk invariant: at position `i` the running expected predecessor hash
`prev` is the sentinel at position 0, or the stored hash of block `i - 1`. -/
def prevState (c : Blockchain) (i : Nat) (prev : String) : Prop :=
  (i = 0 ∧ prev = "0") ∨ ∃ j p, i = j + 1 ∧ c.blocks j = some p ∧ p.hash = some prev

/-- The shape of a still-open block at id `i` holding records `l`. -/
def openBlock (i : Nat) (p : String) (now : Nat) (l : List Transaction) : Block :=
  { id := i, timestamp := now, transactions := l, previous_hash := p, hash := none }

/-- The shape of a block holding records `l`, sealed with the hash computed
at the moment the fifth record was inserted. -/
def sealedBlock (i : Nat) (p : String) (now : Nat) (l : List Transaction) : Block :=
  { openBlock i p now l with
      hash := some (Block.calculate_hash (openBlock i p now l)) }

/-- The ledger invariant after `tip + 1` well-formed appends: the latest id
is `tip`, every position up to `tip` passes the validator's checks, and no
block is stored beyond `tip`. -/
def ChainInv (c : Blockchain) (tip : Nat) : Prop :=
  c.latest_block = some tip ∧ (∀ n, n ≤ tip → passesAt c n) ∧
    ∀ n, tip < n → c.blocks n = none

/-- Iterated `add_block`: one batch of records and one clock reading per
appended block, stopping at the first panic. -/
def add_blocks : Blockchain → List (List Transaction × Nat) → Option Blockchain
  | c, [] => some c
  | c, (txs, now) :: rest =>
    match Blockchain.add_block c txs now with
    | none => none
    | some c2 => add_blocks c2 rest

/-- Sample record used to instantiate theorems at concrete inputs. -/
def sampleTx (i : Nat) : Transaction :=
  { id := i, origin := "a", destination := "b", quantity := i }

/-- A sample batch of exactly five records. -/
def sampleTxs : List Transaction :=
  [sampleTx 1, sampleTx 2, sampleTx 3, sampleTx 4, sampleTx 5]

/-- Mutating a stored block in place, as the repository's tamper test does
through `blocks.get_mut`: the map entry at `k` is replaced by `b`. -/
def setBlock (c : Blockchain) (k : Nat) (b : Block) : Blockchain :=
  { c with blocks := insertB c.blocks k b }

/-- A change of exactly one field of a record. -/
def TxFieldChange (t t2 : Transaction) : Prop :=
  (t2 = { t with id := t2.id } ∧ t2.id ≠ t.id) ∨
  (t2 = { t with origin := t2.origin } ∧ t2.origin ≠ t.origin) ∨
  (t2 = { t with destination := t2.destination } ∧ t2.destination ≠ t.destination) ∨
  (t2 = { t with quantity := t2.quantity } ∧ t2.quantity ≠ t.quantity)

/-- A change of exactly one field of a sealed block's hashed contents: its
id, its timestamp, its predecessor hash, or one field of one stored record.
The stored `hash` field itself is untouched, as in the spec's tamper
scenario. -/
def BlockFieldMutation (b b2 : Block) : Prop :=
  (b2 = { b with id := b2.id } ∧ b2.id ≠ b.id) ∨
  (b2 = { b with timestamp := b2.timestamp } ∧ b2.timestamp ≠ b.timestamp) ∨
  (b2 = { b with previous_hash := b2.previous_hash } ∧
    b2.previous_hash ≠ b.previous_hash) ∨
  (∃ n t t2, b.transactions.get? n = some t ∧ TxFieldChange t t2 ∧
    b2 = { b with transactions := b.transactions.set n t2 })

/-- Claim C8 as stated: on any validating ledger, mutating one field of any
stored block within the validated range flips `validate_chain` to false, and
restoring the original block flips it back to true. -/
def ClaimC8Statement : Prop :=
  ∀ (c : Blockchain) (tip k : Nat) (b b2 : Block),
    Blockchain.validate_chain c = some true →
    c.latest_block = some tip → k ≤ tip →
    c.blocks k = some b →
    BlockFieldMutation b b2 →
    Blockchain.validate_chain (setBlock c k b2) = some false ∧
    Blockchain.validate_chain (setBlock (setBlock c k b2) k b) = some true

/-- The content hash of the genesis block created with clock reading 0; the
predecessor hash of the first appended block. -/
def collisionPrev : String := Block.calculate_hash (Block.new 0 "0" 0)

/-- The first appended block of the collision scenario: sealed at clock 23. -/
def collisionBlockA : Block := sealedBlock 1 collisionPrev 23 sampleTxs

/-- The coordinated cross-field mutation of `collisionBlockA`: sequence
number 12 and timestamp 3 serialize to the same bytes as 1 and 23. -/
def collisionBlockB : Block := { collisionBlockA with id := 12, timestamp := 3 }

/-- The two-block ledger holding genesis and `collisionBlockA`. -/
def collisionChain : Blockchain :=
  { blocks := insertB (Blockchain.new 0).blocks 1 collisionBlockA,
    latest_block := some 1 }

/-- An unbounded family of distinct origin strings. -/
def originOf (n : Nat) : String := String.mk (List.replicate n 'a')

/-- A record whose origin is the only varying field across the family. -/
def collTx (o : String) : Transaction :=
  { id := 0, origin := o, destination := "d", quantity := 0 }

/-- A batch of five records whose first record has origin `o`. -/
def collTxs (o : String) : List Transaction :=
  [collTx o, sampleTx 2, sampleTx 3, sampleTx 4, sampleTx 5]

/-- A two-block ledger whose block 1 carries the batch `collTxs o`. -/
def collChain (o : String) : Blockchain :=
  { blocks := insertB (insertB (fun _ => none) 0 (Blockchain.genesisBlock 0)) 1
      (sealedBlock 1 collisionPrev 0 (collTxs o)),
    latest_block := some 1 }

/-- Block 1 of `collChain o1` with the first record's origin mutated to
`o2`, keeping the stored hash. -/
def collMutB (o1 o2 : String) : Block :=
  { sealedBlock 1 collisionPrev 0 (collTxs o1) with
      transactions := (collTxs o1).set 0 (collTx o2) }

lemma passesAt_elim (c : Blockchain) (n : Nat) (h : passesAt c n) :
    ∃ b, c.blocks n = some b ∧ b.hash = some (Block.calculate_hash b) ∧
      ((n = 0 ∧ b.previous_hash = "0") ∨
        ∃ j p, n = j + 1 ∧ c.blocks j = some p ∧ p.hash = some b.previous_hash) := by
  cases n with
  | zero =>
    obtain ⟨b, h1, h2, h3⟩ := h
    exact ⟨b, h1, h2, Or.inl ⟨rfl, h3⟩⟩
  | succ j =>
    obtain ⟨b, p, h1, h2, h3, h4⟩ := h
    exact ⟨b, h1, h3, Or.inr ⟨j, p, rfl, h2, h4⟩⟩

lemma passesAt_intro (c : Blockchain) (i : Nat) (prev : String) (hps : prevState c i prev)
    (b : Block) (hb : c.blocks i = some b) (hh : b.hash = some (Block.calculate_hash b))
    (hp : b.previous_hash = prev) : passesAt c i := by
  rcases hps with ⟨hi, hprev⟩ | ⟨j, p, hi, hj, hph⟩
  · subst hi
    exact ⟨b, hb, hh, by rw [hp, hprev]⟩
  · subst hi
    exact ⟨b, p, hb, hj, hh, by rw [hp]; exact hph⟩

lemma passesAt_checks (c : Blockchain) (i : Nat) (prev : String) (hps : prevState c i prev)
    (b : Block) (hb : c.blocks i = some b) (h : passesAt c i) :
    b.hash = some (Block.calculate_hash b) ∧ b.previous_hash = prev := by
  obtain ⟨b2, hb2, hh2, hrest⟩ := passesAt_elim c i h
  rw [hb] at hb2
  injection hb2 with e
  subst e
  refine ⟨hh2, ?_⟩
  rcases hrest with ⟨hi, hp⟩ | ⟨j, p, hi, hj, hp⟩
  · rcases hps with ⟨_, hprev⟩ | ⟨j2, p2, hij, _, _⟩
    · rw [hp, hprev]
    · omega
  · rcases hps with ⟨hi0, _⟩ | ⟨j2, p2, hij, hj2, hph2⟩
    · omega
    · subst hi
      have hjj : j2 = j := by omega
      subst hjj
      rw [hj] at hj2
      injection hj2 with e2
      subst e2
      rw [hp] at hph2
      exact Option.some.inj hph2

lemma validateFrom_true_iff (c : Blockchain) :
    ∀ fuel i prev, prevState c i prev →
      (Blockchain.validateFrom c prev i fuel = some true ↔
        ∀ n, i ≤ n → n < i + fuel → passesAt c n) := by
  intro fuel
  induction fuel with
  | zero =>
    intro i prev _
    constructor
    · intro _ n h1 h2
      exact absurd h2 (by omega)
    · intro _
      rfl
  | succ m ih =>
    intro i prev hps
    unfold Blockchain.validateFrom
    cases hb : c.blocks i with
    | none =>
      dsimp only
      constructor
      · intro h
        cases h
      · intro h
        exfalso
        obtain ⟨b2, hb2, -, -⟩ := passesAt_elim c i (h i (Nat.le_refl i) (by omega))
        rw [hb] at hb2
        cases hb2
    | some b =>
      dsimp only
      cases hh : b.hash with
      | none =>
        dsimp only
        constructor
        · intro h
          cases h
        · intro h
          exfalso
          have hc := passesAt_checks c i prev hps b hb (h i (Nat.le_refl i) (by omega))
          rw [hh] at hc
          cases hc.1
      | some h0 =>
        dsimp only
        by_cases hcalc : h0 = Block.calculate_hash b
        · by_cases hprev : b.previous_hash = prev
          · rw [if_neg (by simp [hcalc]), if_neg (by simp [hprev])]
            rw [ih (i + 1) h0 (Or.inr ⟨i, b, rfl, hb, hh⟩)]
            constructor
            · intro hall n h1 h2
              rcases Nat.eq_or_lt_of_le h1 with rfl | hlt
              · exact passesAt_intro c i prev hps b hb (by rw [hh, hcalc]) hprev
              · exact hall n hlt (by omega)
            · intro hall n h1 h2
              exact hall n (by omega) (by omega)
          · rw [if_neg (by simp [hcalc]), if_pos (by simp [hprev])]
            constructor
            · intro h
              cases h
            · intro h
              exfalso
              have hc := passesAt_checks c i prev hps b hb (h i (Nat.le_refl i) (by omega))
              exact hprev hc.2
        · rw [if_pos (by simp [hcalc])]
          constructor
          · intro h
            cases h
          · intro h
            exfalso
            have hc := passesAt_checks c i prev hps b hb (h i (Nat.le_refl i) (by omega))
            rw [hh] at hc
            injection hc.1 with e
            exact hcalc e

lemma validateFrom_false (c : Blockchain) :
    ∀ fuel i prev, prevState c i prev →
      ∀ k, i ≤ k → k < i + fuel →
        (∀ n, i ≤ n → n < k → passesAt c n) →
        (∃ b, c.blocks k = some b) →
        ¬ passesAt c k →
        Blockchain.validateFrom c prev i fuel = some false := by
  intro fuel
  induction fuel with
  | zero =>
    intro i prev _ k h1 h2 _ _ _
    exact absurd h2 (by omega)
  | succ m ih =>
    intro i prev hps k hik hk hprefix hbk hfail
    obtain ⟨bk, hbk⟩ := hbk
    unfold Blockchain.validateFrom
    rcases Nat.eq_or_lt_of_le hik with rfl | hlt
    · rw [hbk]
      dsimp only
      cases hh : bk.hash with
      | none => rfl
      | some h0 =>
        dsimp only
        by_cases hc : h0 = Block.calculate_hash bk
        · by_cases hp : bk.previous_hash = prev
          · exact absurd (passesAt_intro c i prev hps bk hbk (by rw [hh, hc]) hp) hfail
          · rw [if_neg (by simp [hc]), if_pos (by simp [hp])]
        · rw [if_pos (by simp [hc])]
    · have hpi : passesAt c i := hprefix i (Nat.le_refl i) hlt
      obtain ⟨b, hb, -, -⟩ := passesAt_elim c i hpi
      have hchecks := passesAt_checks c i prev hps b hb hpi
      rw [hb]
      dsimp only
      rw [hchecks.1]
      dsimp only
      rw [if_neg (by simp), if_neg (by simp [hchecks.2])]
      exact ih (i + 1) (Block.calculate_hash b) (Or.inr ⟨i, b, rfl, hb, hchecks.1⟩) k hlt
        (by omega) (fun n h1 h2 => hprefix n (by omega) h2) ⟨bk, hbk⟩ hfail

lemma validate_chain_true_iff (c : Blockchain) (tip : Nat)
    (h : c.latest_block = some tip) :
    Blockchain.validate_chain c = some true ↔ ∀ n, n ≤ tip → passesAt c n := by
  unfold Blockchain.validate_chain
  rw [h]
  rw [validateFrom_true_iff c (tip + 1) 0 "0" (Or.inl ⟨rfl, rfl⟩)]
  constructor
  · intro hall n h1
    exact hall n (by omega) (by omega)
  · intro hall n _ h2
    exact hall n (by omega)

lemma validate_chain_false_of_failure (c : Blockchain) (tip k : Nat)
    (h : c.latest_block = some tip) (hk : k ≤ tip)
    (hpre : ∀ n, n < k → passesAt c n) (hbk : ∃ b, c.blocks k = some b)
    (hf : ¬ passesAt c k) : Blockchain.validate_chain c = some false := by
  unfold Blockchain.validate_chain
  rw [h]
  exact validateFrom_false c (tip + 1) 0 "0" (Or.inl ⟨rfl, rfl⟩) k (by omega) (by omega)
    (fun n _ h2 => hpre n h2) hbk hf

lemma calculate_hash_hash_irrel (b : Block) (x : Option String) :
    Block.calculate_hash { b with hash := x } = Block.calculate_hash b := by
  cases b
  rfl

lemma calc_hash_congr (b1 b2 : Block) (hid : b1.id = b2.id)
    (ht : b1.timestamp = b2.timestamp) (htx : b1.transactions = b2.transactions)
    (hp : b1.previous_hash = b2.previous_hash) :
    Block.calculate_hash b1 = Block.calculate_hash b2 := by
  cases b1 with
  | mk i1 ts1 l1 p1 h1 =>
    cases b2 with
    | mk i2 ts2 l2 p2 h2 =>
      dsimp only at hid ht htx hp
      subst hid
      subst ht
      subst htx
      subst hp
      exact (calculate_hash_hash_irrel
        { id := i1, timestamp := ts1, transactions := l1, previous_hash := p1,
          hash := h1 } h2).symm

lemma sealedBlock_hash (i : Nat) (p : String) (now : Nat) (l : List Transaction) :
    (sealedBlock i p now l).hash =
      some (Block.calculate_hash (sealedBlock i p now l)) :=
  congrArg some (calculate_hash_hash_irrel (openBlock i p now l)
    (some (Block.calculate_hash (openBlock i p now l)))).symm

/-- One insertion into an open block below four records: append, no sealing. -/
lemma add_transaction_open (i : Nat) (p : String) (now : Nat) (l : List Transaction)
    (t : Transaction) (h : l.length < 4) :
    (openBlock i p now l).add_transaction t = openBlock i p now (l ++ [t]) := by
  unfold Block.add_transaction openBlock
  dsimp only
  rw [if_pos (by omega), if_neg (by simp; omega)]

/-- The fifth insertion into an open block: append and seal. -/
lemma add_transaction_seal (i : Nat) (p : String) (now : Nat) (l : List Transaction)
    (t : Transaction) (h : l.length = 4) :
    (openBlock i p now l).add_transaction t = sealedBlock i p now (l ++ [t]) := by
  unfold Block.add_transaction openBlock sealedBlock
  dsimp only
  rw [if_pos (by omega), if_pos (by simp [h])]
  rfl

/-- The block built by `add_block`: folding five insertions over a fresh
block yields the block holding exactly those records, sealed on the fifth. -/
lemma foldl_add_transaction_five (i : Nat) (p : String) (now : Nat)
    (l : List Transaction) (hl : l.length = 5) :
    l.foldl Block.add_transaction (Block.new i p now) = sealedBlock i p now l := by
  rcases l with _ | ⟨t1, l⟩
  · simp at hl
  rcases l with _ | ⟨t2, l⟩
  · simp at hl
  rcases l with _ | ⟨t3, l⟩
  · simp at hl
  rcases l with _ | ⟨t4, l⟩
  · simp at hl
  rcases l with _ | ⟨t5, l⟩
  · simp at hl
  rcases l with _ | ⟨t6, l⟩
  · simp [List.foldl, Block.add_transaction, Block.new, sealedBlock, openBlock]
  · simp at hl

lemma passesAt_agree (c c2 : Blockchain) (n : Nat)
    (hagree : ∀ m, m ≤ n → c2.blocks m = c.blocks m) (h : passesAt c n) :
    passesAt c2 n := by
  cases n with
  | zero =>
    obtain ⟨b, h1, h2, h3⟩ := h
    exact ⟨b, by rw [hagree 0 (Nat.le_refl 0)]; exact h1, h2, h3⟩
  | succ j =>
    obtain ⟨b, p, h1, h2, h3, h4⟩ := h
    exact ⟨b, p, by rw [hagree (j + 1) (Nat.le_refl (j + 1))]; exact h1,
      by rw [hagree j (by omega)]; exact h2, h3, h4⟩

lemma new_blocks_zero (now : Nat) :
    (Blockchain.new now).blocks 0 = some (Blockchain.genesisBlock now) := rfl

lemma new_blocks_pos (now n : Nat) (h : n ≠ 0) : (Blockchain.new now).blocks n = none := by
  show insertB (fun _ => none) 0 (Blockchain.genesisBlock now) n = none
  unfold insertB
  rw [if_neg h]

lemma genesisBlock_hash (now : Nat) :
    (Blockchain.genesisBlock now).hash =
      some (Block.calculate_hash (Blockchain.genesisBlock now)) :=
  congrArg some (calculate_hash_hash_irrel (Block.new 0 "0" now)
    (some (Block.calculate_hash (Block.new 0 "0" now)))).symm

lemma chainInv_new (now : Nat) : ChainInv (Blockchain.new now) 0 := by
  refine ⟨rfl, ?_, ?_⟩
  · intro n hn
    have : n = 0 := by omega
    subst this
    exact ⟨Blockchain.genesisBlock now, new_blocks_zero now, genesisBlock_hash now, rfl⟩
  · intro n hn
    exact new_blocks_pos now n (by omega)

lemma chainInv_add (c : Blockchain) (tip : Nat) (inv : ChainInv c tip)
    (txs : List Transaction) (h5 : txs.length = 5) (now : Nat) :
    ∃ c2, Blockchain.add_block c txs now = some c2 ∧ ChainInv c2 (tip + 1) := by
  obtain ⟨hl, hpass, hnone⟩ := inv
  obtain ⟨bt, hbt, hbth, -⟩ := passesAt_elim c tip (hpass tip (Nat.le_refl tip))
  refine ⟨{ blocks := insertB c.blocks (tip + 1)
              (sealedBlock (tip + 1) (Block.calculate_hash bt) now txs),
            latest_block := some (tip + 1) }, ?_, ?_⟩
  · unfold Blockchain.add_block
    rw [if_neg (by simp [h5]), hl]
    dsimp only
    rw [hbt]
    dsimp only
    rw [hbth]
    dsimp only
    rw [foldl_add_transaction_five (tip + 1) (Block.calculate_hash bt) now txs h5]
    rfl
  · refine ⟨rfl, ?_, ?_⟩
    · intro n hn
      rcases Nat.lt_or_ge n (tip + 1) with hlt | hge
      · refine passesAt_agree c _ n ?_ (hpass n (by omega))
        intro m hm
        show insertB c.blocks (tip + 1) _ m = c.blocks m
        unfold insertB
        rw [if_neg (by omega)]
      · have : n = tip + 1 := by omega
        subst this
        refine ⟨sealedBlock (tip + 1) (Block.calculate_hash bt) now txs, bt, ?_, ?_, ?_, ?_⟩
        · show insertB c.blocks (tip + 1) _ (tip + 1) = _
          unfold insertB
          rw [if_pos rfl]
        · show insertB c.blocks (tip + 1) _ tip = some bt
          unfold insertB
          rw [if_neg (by omega)]
          exact hbt
        · exact sealedBlock_hash (tip + 1) (Block.calculate_hash bt) now txs
        · exact hbth
    · intro n hn
      show insertB c.blocks (tip + 1) _ n = none
      unfold insertB
      rw [if_neg (by omega)]
      exact hnone n (by omega)

lemma chainInv_add_blocks :
    ∀ (batches : List (List Transaction × Nat)) (c : Blockchain) (tip : Nat),
      ChainInv c tip → (∀ b ∈ batches, b.1.length = 5) →
      ∃ c2, add_blocks c batches = some c2 ∧ ChainInv c2 (tip + batches.length) := by
  intro batches
  induction batches with
  | nil =>
    intro c tip inv _
    exact ⟨c, rfl, by simpa using inv⟩
  | cons hd rest ih =>
    intro c tip inv hlen
    obtain ⟨txs, tnow⟩ := hd
    obtain ⟨c2, hc2, inv2⟩ := chainInv_add c tip inv txs (hlen (txs, tnow) (by simp)) tnow
    obtain ⟨c3, hc3, inv3⟩ := ih c2 (tip + 1) inv2 (fun b hb => hlen b (by simp [hb]))
    refine ⟨c3, ?_, ?_⟩
    · unfold add_blocks
      rw [hc2]
      exact hc3
    · have he : tip + ((txs, tnow) :: rest).length = tip + 1 + rest.length := by
        simp
        omega
      rw [he]
      exact inv3

lemma validate_chain_of_inv (c : Blockchain) (tip : Nat) (inv : ChainInv c tip) :
    Blockchain.validate_chain c = some true :=
  (validate_chain_true_iff c tip inv.1).mpr inv.2.1

lemma validate_chain_new (now : Nat) :
    Blockchain.validate_chain (Blockchain.new now) = some true :=
  validate_chain_of_inv _ 0 (chainInv_new now)

lemma blockFieldMutation_hash (b b2 : Block) (h : BlockFieldMutation b b2) :
    b2.hash = b.hash := by
  rcases h with ⟨e, -⟩ | ⟨e, -⟩ | ⟨e, -⟩ | ⟨n, t, t2, -, -, e⟩ <;> rw [e]

lemma setBlock_restore (c : Blockchain) (k : Nat) (b b2 : Block)
    (h : c.blocks k = some b) : setBlock (setBlock c k b2) k b = c := by
  cases c with
  | mk blocks latest =>
    simp only [setBlock]
    congr 1
    funext n
    show insertB (insertB blocks k b2) k b n = blocks n
    unfold insertB
    by_cases hn : n = k
    · subst hn
      rw [if_pos rfl]
      exact h.symm
    · rw [if_neg hn, if_neg hn]

lemma originOf_injective (n m : Nat) (h : originOf n = originOf m) : n = m := by
  unfold originOf at h
  have h2 : List.replicate n 'a' = List.replicate m 'a' := by injection h
  have h3 := congrArg List.length h2
  simpa using h3

lemma foldl_word_bound : ∀ (l : List Nat) (acc M : Nat), acc < M →
    l.foldl (fun a x => a * w32 + x % w32) acc < M * w32 ^ l.length := by
  intro l
  induction l with
  | nil =>
    intro acc M h
    simpa using h
  | cons x xs ih =>
    intro acc M h
    have h1 : x % w32 < w32 := Nat.mod_lt _ (by norm_num [w32])
    have h2 : acc * w32 + x % w32 < M * w32 := by
      have h3 : (acc + 1) * w32 ≤ M * w32 := Nat.mul_le_mul_right _ (by omega)
      have h4 : acc * w32 + x % w32 < (acc + 1) * w32 := by
        have : (acc + 1) * w32 = acc * w32 + w32 := by ring
        omega
      omega
    have h5 := ih (acc * w32 + x % w32) (M * w32) h2
    have h6 : M * w32 * w32 ^ xs.length = M * w32 ^ (x :: xs).length := by
      simp [pow_succ]
      ring
    simpa [h6] using h5

lemma sha256Nat_lt (msg : List Nat) : sha256Nat msg < w32 ^ 8 := by
  show [(sha256Words msg).a, (sha256Words msg).b, (sha256Words msg).c, (sha256Words msg).d,
        (sha256Words msg).e, (sha256Words msg).f, (sha256Words msg).g,
        (sha256Words msg).h].foldl (fun a x => a * w32 + x % w32) 0 < w32 ^ 8
  have h := foldl_word_bound
    [(sha256Words msg).a, (sha256Words msg).b, (sha256Words msg).c, (sha256Words msg).d,
     (sha256Words msg).e, (sha256Words msg).f, (sha256Words msg).g, (sha256Words msg).h]
    0 1 Nat.zero_lt_one
  simp only [List.length_cons, List.length_nil, Nat.one_mul] at h
  exact h

lemma exists_origin_collision : ∃ n m : Nat, n ≠ m ∧
    Block.calculate_hash (openBlock 1 collisionPrev 0 (collTxs (originOf n))) =
      Block.calculate_hash (openBlock 1 collisionPrev 0 (collTxs (originOf m))) := by
  obtain ⟨n, m, hnm, hf⟩ := Finite.exists_ne_map_eq_of_infinite
    (fun n : Nat =>
      (⟨sha256Nat (strBytes (Block.hashInput (openBlock 1 collisionPrev 0
          (collTxs (originOf n))))), sha256Nat_lt _⟩ : Fin (w32 ^ 8)))
  refine ⟨n, m, hnm, ?_⟩
  have hv := congrArg Fin.val hf
  dsimp only at hv
  show sha256hex (strBytes (Block.hashInput (openBlock 1 collisionPrev 0
      (collTxs (originOf n))))) =
    sha256hex (strBytes (Block.hashInput (openBlock 1 collisionPrev 0
      (collTxs (originOf m)))))
  unfold sha256hex
  exact congrArg (fun x => String.mk (hexDigits x 64)) hv

lemma collChain_valid (o : String) :
    Blockchain.validate_chain (collChain o) = some true :=
  (validate_chain_true_iff _ 1 rfl).mpr (by
    intro n hn
    rcases n with _ | _ | n
    · exact ⟨Blockchain.genesisBlock 0, rfl, genesisBlock_hash 0, rfl⟩
    · exact ⟨sealedBlock 1 collisionPrev 0 (collTxs o), Blockchain.genesisBlock 0, rfl, rfl,
        sealedBlock_hash 1 collisionPrev 0 (collTxs o), rfl⟩
    · exact absurd hn (by omega))

lemma collChain_mut_valid (o1 o2 : String)
    (hc : Block.calculate_hash (collMutB o1 o2) =
      Block.calculate_hash (openBlock 1 collisionPrev 0 (collTxs o1))) :
    Blockchain.validate_chain (setBlock (collChain o1) 1 (collMutB o1 o2)) = some true :=
  (validate_chain_true_iff _ 1 rfl).mpr (by
    intro n hn
    rcases n with _ | _ | n
    · exact ⟨Blockchain.genesisBlock 0, rfl, genesisBlock_hash 0, rfl⟩
    · refine ⟨collMutB o1 o2, Blockchain.genesisBlock 0, rfl, rfl, ?_, rfl⟩
      rw [hc]
      rfl
    · exact absurd hn (by omega))

/-- Claim C1: `validate_chain` walks ids 0 through tip inclusive; it returns
true iff every position passes the three checks (hash present, stored hash
equal to the recomputed hash, predecessor hash equal to the running expected
predecessor hash seeded with the sentinel "0"), and it short-circuits to
false at the first failing block. -/
theorem validate_chain_walk_characterization (c : Blockchain) (tip : Nat)
    (h : c.latest_block = some tip) :
    (Blockchain.validate_chain c = some true ↔ ∀ n, n ≤ tip → passesAt c n) ∧
    (∀ k, k ≤ tip → (∀ n, n < k → passesAt c n) → (∃ b, c.blocks k = some b) →
      ¬ passesAt c k → Blockchain.validate_chain c = some false) :=
  ⟨validate_chain_true_iff c tip h,
   fun k hk hpre hex hf => validate_chain_false_of_failure c tip k h hk hpre hex hf⟩

/-- Witness for C1 at the fresh ledger with clock 0. -/
theorem validate_chain_walk_characterization_witness :
    (Blockchain.validate_chain (Blockchain.new 0) = some true ↔
      ∀ n, n ≤ 0 → passesAt (Blockchain.new 0) n) ∧
    (∀ k, k ≤ 0 → (∀ n, n < k → passesAt (Blockchain.new 0) n) →
      (∃ b, (Blockchain.new 0).blocks k = some b) →
      ¬ passesAt (Blockchain.new 0) k →
      Blockchain.validate_chain (Blockchain.new 0) = some false) :=
  validate_chain_walk_characterization (Blockchain.new 0) 0 rfl

/-- Claim C2: on a ledger whose tip block is sealed, `add_block` with a batch
of exactly five records appends one new sealed block: id `tip + 1`,
predecessor hash equal to the tip block's stored content hash, exactly the
given records in order, stored under its id, with the tip advanced and the
content hash present. -/
theorem add_block_appends_sealed_block (c : Blockchain) (tip : Nat) (lb : Block)
    (ph : String) (txs : List Transaction) (now : Nat)
    (hl : c.latest_block = some tip) (hb : c.blocks tip = some lb)
    (hh : lb.hash = some ph) (h5 : txs.length = 5) :
    ∃ c2 nb, Blockchain.add_block c txs now = some c2 ∧
      c2.latest_block = some (tip + 1) ∧
      c2.blocks (tip + 1) = some nb ∧
      nb.id = tip + 1 ∧ nb.previous_hash = ph ∧ nb.transactions = txs ∧
      nb.hash = some (Block.calculate_hash nb) := by
  refine ⟨{ blocks := insertB c.blocks (tip + 1) (sealedBlock (tip + 1) ph now txs),
            latest_block := some (tip + 1) },
          sealedBlock (tip + 1) ph now txs, ?_, rfl, ?_, rfl, rfl, rfl,
          sealedBlock_hash (tip + 1) ph now txs⟩
  · unfold Blockchain.add_block
    rw [if_neg (by simp [h5]), hl]
    dsimp only
    rw [hb]
    dsimp only
    rw [hh]
    dsimp only
    rw [foldl_add_transaction_five (tip + 1) ph now txs h5]
    rfl
  · show insertB c.blocks (tip + 1) _ (tip + 1) = _
    unfold insertB
    rw [if_pos rfl]

/-- Witness for C2 on the fresh ledger: the genesis block is the sealed tip. -/
theorem add_block_appends_sealed_block_witness :
    ∃ c2 nb, Blockchain.add_block (Blockchain.new 0) sampleTxs 7 = some c2 ∧
      c2.latest_block = some (0 + 1) ∧
      c2.blocks (0 + 1) = some nb ∧
      nb.id = 0 + 1 ∧
      nb.previous_hash = Block.calculate_hash (Block.new 0 "0" 0) ∧
      nb.transactions = sampleTxs ∧
      nb.hash = some (Block.calculate_hash nb) :=
  add_block_appends_sealed_block (Blockchain.new 0) 0 (Blockchain.genesisBlock 0)
    (Block.calculate_hash (Block.new 0 "0" 0)) sampleTxs 7 rfl (new_blocks_zero 0) rfl rfl

/-- Claim C3: a batch whose length is not exactly five makes `add_block` hit
the fatal `panic!` path, modelled as `none`; no successor state (and so no
truncated or padded block) is produced, the ledger value is untouched. -/
theorem add_block_wrong_size_panics (c : Blockchain) (txs : List Transaction)
    (now : Nat) (h : txs.length ≠ 5) :
    Blockchain.add_block c txs now = none := by
  unfold Blockchain.add_block
  rw [if_pos h]

/-- Witness for C3 with the empty batch. -/
theorem add_block_wrong_size_panics_witness :
    ([] : List Transaction).length ≠ 5 ∧
      Blockchain.add_block (Blockchain.new 0) [] 3 = none :=
  ⟨by decide, add_block_wrong_size_panics (Blockchain.new 0) [] 3 (by decide)⟩

/-- Claim C4: adding a record to a block already holding exactly five records
leaves the block entirely unchanged: the record is silently dropped, no error
is raised, and the stored content hash is untouched. -/
theorem add_transaction_at_capacity_noop (b : Block) (t : Transaction)
    (h : b.transactions.length = 5) : b.add_transaction t = b := by
  unfold Block.add_transaction
  rw [if_neg (by omega)]

/-- Witness for C4 on a concrete full block. -/
theorem add_transaction_at_capacity_noop_witness :
    ({ id := 1, timestamp := 2, transactions := sampleTxs, previous_hash := "p",
          hash := some "h" } : Block).add_transaction (sampleTx 6) =
      { id := 1, timestamp := 2, transactions := sampleTxs, previous_hash := "p",
          hash := some "h" } :=
  add_transaction_at_capacity_noop _ (sampleTx 6) (by decide)

/-- Claim C5: a fresh block has no records and no hash; the first four
insertions leave the hash absent, and the fifth stores exactly the given
records in order and seals the block with the hash of its state at that
moment. -/
theorem block_filling_seals_on_fifth (i : Nat) (p : String) (now : Nat)
    (t1 t2 t3 t4 t5 : Transaction) :
    (Block.new i p now).transactions = [] ∧
    (Block.new i p now).hash = none ∧
    ((Block.new i p now).add_transaction t1).hash = none ∧
    (((Block.new i p now).add_transaction t1).add_transaction t2).hash = none ∧
    ((((Block.new i p now).add_transaction t1).add_transaction t2).add_transaction
      t3).hash = none ∧
    (((((Block.new i p now).add_transaction t1).add_transaction t2).add_transaction
      t3).add_transaction t4).hash = none ∧
    ((((((Block.new i p now).add_transaction t1).add_transaction t2).add_transaction
      t3).add_transaction t4).add_transaction t5).transactions = [t1, t2, t3, t4, t5] ∧
    ((((((Block.new i p now).add_transaction t1).add_transaction t2).add_transaction
      t3).add_transaction t4).add_transaction t5).hash =
      some (Block.calculate_hash
        ((((((Block.new i p now).add_transaction t1).add_transaction
          t2).add_transaction t3).add_transaction t4).add_transaction t5)) := by
  have h0 : Block.new i p now = openBlock i p now [] := rfl
  have e1 : (Block.new i p now).add_transaction t1 = openBlock i p now [t1] := by
    rw [h0, add_transaction_open i p now [] t1 (by simp)]
    rfl
  have e2 : ((Block.new i p now).add_transaction t1).add_transaction t2 =
      openBlock i p now [t1, t2] := by
    rw [e1, add_transaction_open i p now [t1] t2 (by simp)]
    rfl
  have e3 : (((Block.new i p now).add_transaction t1).add_transaction t2).add_transaction
      t3 = openBlock i p now [t1, t2, t3] := by
    rw [e2, add_transaction_open i p now [t1, t2] t3 (by simp)]
    rfl
  have e4 : ((((Block.new i p now).add_transaction t1).add_transaction t2).add_transaction
      t3).add_transaction t4 = openBlock i p now [t1, t2, t3, t4] := by
    rw [e3, add_transaction_open i p now [t1, t2, t3] t4 (by simp)]
    rfl
  have e5 : (((((Block.new i p now).add_transaction t1).add_transaction
      t2).add_transaction t3).add_transaction t4).add_transaction t5 =
      sealedBlock i p now [t1, t2, t3, t4, t5] := by
    rw [e4, add_transaction_seal i p now [t1, t2, t3, t4] t5 (by simp)]
    rfl
  refine ⟨rfl, rfl, ?_, ?_, ?_, ?_, ?_, ?_⟩
  · rw [e1]
    rfl
  · rw [e2]
    rfl
  · rw [e3]
    rfl
  · rw [e4]
    rfl
  · rw [e5]
    rfl
  · rw [e5]
    exact sealedBlock_hash i p now [t1, t2, t3, t4, t5]

/-- Claim C6: a fresh ledger stores under id 0 the genesis block, whose
predecessor hash is the sentinel "0" and whose content hash is present
despite holding zero records; the tip is 0 and the chain validates. -/
theorem fresh_ledger_genesis (now : Nat) :
    Blockchain.get_block_by_id (Blockchain.new now) 0 =
      some (Blockchain.genesisBlock now) ∧
    (Blockchain.genesisBlock now).previous_hash = "0" ∧
    (Blockchain.genesisBlock now).transactions = [] ∧
    (Blockchain.genesisBlock now).hash.isSome = true ∧
    (Blockchain.new now).latest_block = some 0 ∧
    Blockchain.validate_chain (Blockchain.new now) = some true :=
  ⟨new_blocks_zero now, rfl, rfl, rfl, rfl, validate_chain_new now⟩

/-- Claim C7: `calculate_hash` is a pure function of the four fields id,
timestamp, records and predecessor hash alone: two blocks agreeing on those
four fields (in particular, regardless of the stored `hash` field) have the
same digest. Determinism and absence of side effects are inherent to the
embedding of the Rust function as a pure Lean function. -/
theorem calculate_hash_depends_only_on_contents (b1 b2 : Block)
    (hid : b1.id = b2.id) (ht : b1.timestamp = b2.timestamp)
    (htx : b1.transactions = b2.transactions)
    (hp : b1.previous_hash = b2.previous_hash) :
    Block.calculate_hash b1 = Block.calculate_hash b2 :=
  calc_hash_congr b1 b2 hid ht htx hp

/-- Witness for C7: two blocks differing only in the stored hash field. -/
theorem calculate_hash_depends_only_on_contents_witness :
    Block.calculate_hash { id := 1, timestamp := 2, transactions := [],
                           previous_hash := "p", hash := none } =
    Block.calculate_hash { id := 1, timestamp := 2, transactions := [],
                           previous_hash := "p", hash := some "x" } :=
  calculate_hash_depends_only_on_contents _ _ rfl rfl rfl rfl

/-- Claim C9: appending `N` batches of five records each to a fresh ledger
yields blocks under exactly the ids 0 through `N`, each sealed, each linked
to its predecessor's stored content hash, with tip `N` and a chain that
validates. -/
theorem append_batches_forms_valid_chain (batches : List (List Transaction × Nat))
    (now : Nat) (h5 : ∀ b ∈ batches, b.1.length = 5) :
    ∃ c, add_blocks (Blockchain.new now) batches = some c ∧
      c.latest_block = some batches.length ∧
      (∀ n, n ≤ batches.length →
        ∃ b, c.blocks n = some b ∧ b.hash = some (Block.calculate_hash b)) ∧
      (∀ n, n < batches.length →
        ∃ b p, c.blocks (n + 1) = some b ∧ c.blocks n = some p ∧
          p.hash = some b.previous_hash) ∧
      (∀ n, batches.length < n → c.blocks n = none) ∧
      Blockchain.validate_chain c = some true := by
  obtain ⟨c, hc, inv⟩ :=
    chainInv_add_blocks batches (Blockchain.new now) 0 (chainInv_new now) h5
  rw [Nat.zero_add] at inv
  refine ⟨c, hc, inv.1, ?_, ?_, inv.2.2, validate_chain_of_inv c batches.length inv⟩
  · intro n hn
    obtain ⟨b, hb, hh, -⟩ := passesAt_elim c n (inv.2.1 n (by omega))
    exact ⟨b, hb, hh⟩
  · intro n hn
    obtain ⟨b, p, h1, h2, h3, h4⟩ := inv.2.1 (n + 1) (by omega)
    exact ⟨b, p, h1, h2, h4⟩

/-- Claim C8 as amended: mutating one field of a stored block in the
validated range either leaves the recomputed content hash unchanged (a hash
collision) or makes `validate_chain` return false; restoring the original
block always makes it return true again. -/
theorem mutation_detection_modulo_collision (c : Blockchain) (tip k : Nat) (b b2 : Block)
    (hv : Blockchain.validate_chain c = some true) (hl : c.latest_block = some tip)
    (hk : k ≤ tip) (hb : c.blocks k = some b) (hm : BlockFieldMutation b b2) :
    (Block.calculate_hash b2 = Block.calculate_hash b ∨
      Blockchain.validate_chain (setBlock c k b2) = some false) ∧
    Blockchain.validate_chain (setBlock (setBlock c k b2) k b) = some true := by
  have hall := (validate_chain_true_iff c tip hl).mp hv
  constructor
  · by_cases hcoll : Block.calculate_hash b2 = Block.calculate_hash b
    · exact Or.inl hcoll
    · refine Or.inr
        (validate_chain_false_of_failure (setBlock c k b2) tip k hl hk ?_ ⟨b2, ?_⟩ ?_)
      · intro n hn
        refine passesAt_agree c _ n ?_ (hall n (by omega))
        intro m hm2
        show insertB c.blocks k b2 m = c.blocks m
        unfold insertB
        rw [if_neg (by omega)]
      · show insertB c.blocks k b2 k = some b2
        unfold insertB
        rw [if_pos rfl]
      · intro hp
        obtain ⟨b3, hb3, hh3, -⟩ := passesAt_elim _ k hp
        have hb3e : b3 = b2 := by
          have he : insertB c.blocks k b2 k = some b3 := hb3
          unfold insertB at he
          rw [if_pos rfl] at he
          exact (Option.some.inj he).symm
        rw [hb3e] at hh3
        obtain ⟨bk, hbk, hhk, -⟩ := passesAt_elim c k (hall k (by omega))
        rw [hb] at hbk
        have hbke := Option.some.inj hbk
        rw [← hbke] at hhk
        have hhash := blockFieldMutation_hash b b2 hm
        rw [hhash, hhk] at hh3
        exact hcoll (Option.some.inj hh3).symm
  · rw [setBlock_restore c k b b2 hb]
    exact hv

/-- Witness for the amended C8: mutating the genesis timestamp on a fresh
ledger. -/
theorem mutation_detection_modulo_collision_witness :
    (Block.calculate_hash { Blockchain.genesisBlock 0 with timestamp := 1 } =
        Block.calculate_hash (Blockchain.genesisBlock 0) ∨
      Blockchain.validate_chain (setBlock (Blockchain.new 0) 0
        { Blockchain.genesisBlock 0 with timestamp := 1 }) = some false) ∧
    Blockchain.validate_chain (setBlock (setBlock (Blockchain.new 0) 0
      { Blockchain.genesisBlock 0 with timestamp := 1 }) 0
      (Blockchain.genesisBlock 0)) = some true :=
  mutation_detection_modulo_collision (Blockchain.new 0) 0 0 (Blockchain.genesisBlock 0)
    { Blockchain.genesisBlock 0 with timestamp := 1 } (validate_chain_new 0) rfl
    (Nat.le_refl 0) (new_blocks_zero 0) (Or.inr (Or.inl ⟨rfl, by decide⟩))

/-- Counterexample to claim C8 as stated: because all digests lie below
2^256 while origin strings are unbounded, two distinct origins collide on
the recomputed content hash; mutating a record's origin across such a
collision leaves `validate_chain` true, so the universal claim is false. -/
theorem mutation_detection_not_universal : ¬ ClaimC8Statement := by
  intro H
  obtain ⟨n, m, hnm, hcoll⟩ := exists_origin_collision
  have ho : (collTx (originOf m)).origin ≠ (collTx (originOf n)).origin := by
    intro he
    exact hnm (originOf_injective n m (by
      have : originOf m = originOf n := he
      exact this.symm))
  have hmut : BlockFieldMutation (sealedBlock 1 collisionPrev 0 (collTxs (originOf n)))
      (collMutB (originOf n) (originOf m)) :=
    Or.inr (Or.inr (Or.inr ⟨0, collTx (originOf n), collTx (originOf m), rfl,
      Or.inr (Or.inl ⟨rfl, ho⟩), rfl⟩))
  have h1 := (H (collChain (originOf n)) 1 1
      (sealedBlock 1 collisionPrev 0 (collTxs (originOf n)))
      (collMutB (originOf n) (originOf m))
      (collChain_valid (originOf n)) rfl (Nat.le_refl 1) rfl hmut).1
  have hc : Block.calculate_hash (collMutB (originOf n) (originOf m)) =
      Block.calculate_hash (openBlock 1 collisionPrev 0 (collTxs (originOf n))) := by
    have e1 : Block.calculate_hash (collMutB (originOf n) (originOf m)) =
        Block.calculate_hash (openBlock 1 collisionPrev 0 (collTxs (originOf m))) :=
      calc_hash_congr _ _ rfl rfl rfl rfl
    exact e1.trans hcoll.symm
  have h2 := collChain_mut_valid (originOf n) (originOf m) hc
  rw [h1] at h2
  exact absurd h2 (by simp)

/-- Claim C10: the serialization feeding the hasher concatenates sequence
number, timestamp, the records' debug text and predecessor hash with no
separators, so the id and timestamp pairs (1, 23) and (12, 3) serialize
identically: two blocks with the same records and predecessor hash but
those different pairs share one content hash, and the coordinated
cross-field mutation of the sealed stored block from one to the other is
invisible to `validate_chain`. -/
theorem serialization_collision_evades_validation :
    Blockchain.add_block (Blockchain.new 0) sampleTxs 23 = some collisionChain ∧
    Blockchain.validate_chain collisionChain = some true ∧
    collisionChain.blocks 1 = some collisionBlockA ∧
    collisionBlockB.id ≠ collisionBlockA.id ∧
    collisionBlockB.timestamp ≠ collisionBlockA.timestamp ∧
    collisionBlockB.transactions = collisionBlockA.transactions ∧
    collisionBlockB.previous_hash = collisionBlockA.previous_hash ∧
    Block.hashInput collisionBlockB = Block.hashInput collisionBlockA ∧
    Block.calculate_hash collisionBlockB = Block.calculate_hash collisionBlockA ∧
    Blockchain.validate_chain (setBlock collisionChain 1 collisionBlockB) =
      some true := by
  have h8 : Block.hashInput collisionBlockB = Block.hashInput collisionBlockA := by
    show toString (12 : Nat) ++ toString (3 : Nat) ++ fmtTransactions sampleTxs ++
        collisionPrev =
      toString (1 : Nat) ++ toString (23 : Nat) ++ fmtTransactions sampleTxs ++
        collisionPrev
    rw [show toString (12 : Nat) ++ toString (3 : Nat) =
        toString (1 : Nat) ++ toString (23 : Nat) from by decide]
  have h9 : Block.calculate_hash collisionBlockB = Block.calculate_hash collisionBlockA :=
    congrArg (fun s => sha256hex (strBytes s)) h8
  refine ⟨?_, ?_, rfl, by decide, by decide, rfl, rfl, h8, h9, ?_⟩
  · unfold Blockchain.add_block
    rw [if_neg (by decide)]
    rw [show (Blockchain.new 0).latest_block = some 0 from rfl]
    dsimp only
    rw [new_blocks_zero 0]
    dsimp only
    rw [show (Blockchain.genesisBlock 0).hash = some collisionPrev from rfl]
    dsimp only
    rw [foldl_add_transaction_five 1 collisionPrev 23 sampleTxs rfl]
    rfl
  · exact (validate_chain_true_iff _ 1 rfl).mpr (by
      intro n hn
      rcases n with _ | _ | n
      · exact ⟨Blockchain.genesisBlock 0, rfl, genesisBlock_hash 0, rfl⟩
      · exact ⟨collisionBlockA, Blockchain.genesisBlock 0, rfl, rfl,
          sealedBlock_hash 1 collisionPrev 23 sampleTxs, rfl⟩
      · exact absurd hn (by omega))
  · exact (validate_chain_true_iff _ 1 rfl).mpr (by
      intro n hn
      rcases n with _ | _ | n
      · exact ⟨Blockchain.genesisBlock 0, rfl, genesisBlock_hash 0, rfl⟩
      · refine ⟨collisionBlockB, Blockchain.genesisBlock 0, rfl, rfl, ?_, rfl⟩
        rw [h9]
        exact sealedBlock_hash 1 collisionPrev 23 sampleTxs
      · exact absurd hn (by omega))

/-- Witness for C9 with one concrete batch. -/
theorem append_batches_forms_valid_chain_witness :
    ∃ c, add_blocks (Blockchain.new 0) [(sampleTxs, 3)] = some c ∧
      c.latest_block = some [(sampleTxs, 3)].length ∧
      (∀ n, n ≤ [(sampleTxs, 3)].length →
        ∃ b, c.blocks n = some b ∧ b.hash = some (Block.calculate_hash b)) ∧
      (∀ n, n < [(sampleTxs, 3)].length →
        ∃ b p, c.blocks (n + 1) = some b ∧ c.blocks n = some p ∧
          p.hash = some b.previous_hash) ∧
      (∀ n, [(sampleTxs, 3)].length < n → c.blocks n = none) ∧
      Blockchain.validate_chain c = some true :=
  append_batches_forms_valid_chain [(sampleTxs, 3)] 0 (by decide)

end SimpleBlockchain
